import Mathlib

/-!
# `src/utils/helpers.js`: `sortObjectByValue` and `getSortedCategoriesByCount`

A shallow embedding of the two functions together with the part of the
JavaScript object model they rely on:

* `cntPerCategory` is an ordinary object created by `{}`, so its prototype is
  `Object.prototype`; reads fall through to the inherited members, and writes to
  the inherited accessor `__proto__` go to its setter;
* `for ... in` visits own keys as `OrdinaryOwnPropertyKeys` lists them: array
  indices in ascending numeric order first, then the other string keys in the
  order they were created;
* `Array.prototype.sort` is stable and treats a `NaN` comparator result as `+0`.
-/

namespace Helpers

/-! ## Values -/

/-- An object that `cntPerCategory` reaches through its prototype chain. -/
inductive Inherited where
  /-- The object `Object.prototype` itself, returned by the `__proto__` getter. -/
  | objectPrototype
  /-- A built-in function, identified by its `name`. -/
  | nativeFunction (name : String)
  deriving DecidableEq, Repr

/-- The primitive values the program can store in `cntPerCategory`. -/
inductive JSPrim where
  /-- A Number holding a non-negative integer. -/
  | number (n : Nat)
  /-- The Number `NaN`. -/
  | nan
  /-- The String made of `String(base)` followed by `ones` copies of `"1"`. -/
  | string (base : Inherited) (ones : Nat)
  deriving DecidableEq, Repr

/-- The result of reading a property: `obj[key]`. -/
inductive JSValue where
  | undefined
  | prim (p : JSPrim)
  | object (o : Inherited)
  deriving DecidableEq, Repr

/-- The text of `String(o)` for an inherited object. -/
def Inherited.text : Inherited → String
  | .objectPrototype => "[object Object]"
  | .nativeFunction name => "function " ++ name ++ "() \x7b [native code] \x7d"

/-- The text of a stored string value; `none` for Numbers. -/
def JSPrim.text? : JSPrim → Option String
  | .string base ones => some (base.text ++ String.mk (List.replicate ones '1'))
  | _ => none

/-- ToBoolean, as applied by the conditional operator. -/
def toBoolean : JSValue → Bool
  | .undefined => false
  | .prim (.number n) => n != 0
  | .prim .nan => false
  | .prim (.string _ _) => true
  | .object _ => true

/-- The expression `v + 1`: numeric addition on Numbers, string concatenation once
ToPrimitive yields a String. -/
def plusOne : JSValue → JSPrim
  | .undefined => .nan
  | .prim (.number n) => .number (n + 1)
  | .prim .nan => .nan
  | .prim (.string base ones) => .string base (ones + 1)
  | .object o => .string o 1

/-- ToNumber; `none` stands for `NaN`.  Every string the program stores starts with
`[object` or `function`, which is no numeric literal. -/
def toNumber : JSValue → Option Int
  | .undefined => none
  | .prim (.number n) => some (n : Int)
  | .prim .nan => none
  | .prim (.string _ _) => none
  | .object _ => none

/-! ## The counting object -/

/-- Own properties of `cntPerCategory`, in creation order. -/
abbrev JSObject := List (String × JSPrim)

/-- Names of the function-valued members of `Object.prototype`, each with the
`name` of the function it holds. -/
def objectPrototypeMethods : List (String × String) :=
  [("constructor", "Object"),
   ("__defineGetter__", "__defineGetter__"),
   ("__defineSetter__", "__defineSetter__"),
   ("hasOwnProperty", "hasOwnProperty"),
   ("__lookupGetter__", "__lookupGetter__"),
   ("__lookupSetter__", "__lookupSetter__"),
   ("isPrototypeOf", "isPrototypeOf"),
   ("propertyIsEnumerable", "propertyIsEnumerable"),
   ("toString", "toString"),
   ("valueOf", "valueOf"),
   ("toLocaleString", "toLocaleString")]

/-- Reading `key` on `Object.prototype`. -/
def prototypeGet (key : String) : JSValue :=
  if key = "__proto__" then .object .objectPrototype
  else match objectPrototypeMethods.lookup key with
    | some name => .object (.nativeFunction name)
    | none => .undefined

/-- The expression `obj[key]`. -/
def getProp (obj : JSObject) (key : String) : JSValue :=
  match obj.lookup key with
  | some p => .prim p
  | none => prototypeGet key

/-- Overwrites the value of the own property `key`, keeping its position. -/
def updateOwn (key : String) (v : JSPrim) : JSObject → JSObject
  | [] => []
  | (k, w) :: rest => if k = key then (k, v) :: rest else (k, w) :: updateOwn key v rest

/-- The assignment `obj[key] = v` for a primitive `v`: an own property is
overwritten; `__proto__` otherwise reaches the inherited setter, which ignores
primitives; any other key becomes a new own property, created last. -/
def setProp (obj : JSObject) (key : String) (v : JSPrim) : JSObject :=
  if (obj.lookup key).isSome then updateOwn key v obj
  else if key = "__proto__" then obj
  else obj ++ [(key, v)]

/-! ## Property enumeration -/

/-- Value of a decimal digit. -/
def digitValue (c : Char) : Option Nat :=
  if '0' ≤ c ∧ c ≤ '9' then some (c.toNat - '0'.toNat) else none

/-- Value of a string of decimal digits, most significant first. -/
def digitsValue : List Char → Nat → Option Nat
  | [], acc => some acc
  | c :: cs, acc =>
    match digitValue c with
    | some d => digitsValue cs (10 * acc + d)
    | none => none

/-- The number a canonical non-negative integer string denotes: decimal digits
only, no leading zero except in `"0"`. -/
def canonicalNat? (key : String) : Option Nat :=
  match key.data with
  | [] => none
  | ['0'] => some 0
  | '0' :: _ => none
  | cs => digitsValue cs 0

/-- An array index is a canonical integer key below `2 ^ 32 - 1`. -/
def arrayIndex? (key : String) : Option Nat :=
  (canonicalNat? key).filter (fun n => n < 4294967295)

/-- Index of a key that is an array index (`0` is unused for the others). -/
def indexOfKey (key : String) : Nat := (arrayIndex? key).getD 0

/-- The keys `for (let item in obj)` visits, in order: the own keys, array indices
first; `Object.prototype` contributes none, its members being non-enumerable. -/
def forInKeys (obj : JSObject) : List String :=
  let keys := obj.map Prod.fst
  (keys.filter (fun k => (arrayIndex? k).isSome)).insertionSort
      (fun a b => indexOfKey a ≤ indexOfKey b)
    ++ keys.filter (fun k => (arrayIndex? k).isNone)

/-! ## `sortObjectByValue` -/

/-- The comparator `(a, b) => b[1] - a[1]`; `none` stands for `NaN`. -/
def compareFn (a b : String × JSValue) : Option Int :=
  match toNumber b.2, toNumber a.2 with
  | some x, some y => some (x - y)
  | _, _ => none

/-- SortCompare: a `NaN` from the comparator counts as `+0`. -/
def sortCompare (a b : String × JSValue) : Int := (compareFn a b).getD 0

/-- The method `Array.prototype.sort` with a comparator, as a stable insertion sort:
`a` is placed ahead of `b` unless the comparator is positive on `(a, b)`.  Whenever the
comparator is consistent (all values Numbers, or every comparison `NaN`) each conforming
stable sort returns this list; otherwise ECMAScript leaves the order to the engine, which
is why the ordering theorems below assume labels that name no inherited member. -/
def arraySort (l : List (String × JSValue)) : List (String × JSValue) :=
  l.insertionSort (fun a b => sortCompare a b ≤ 0)

/-- The function `sortObjectByValue`. -/
def sortObjectByValue (obj : JSObject) : List (String × JSValue) :=
  let sortable := (forInKeys obj).map (fun item => (item, getProp obj item))
  arraySort sortable

/-! ## `getSortedCategoriesByCount` -/

/-- A post; `categories` is `none` when the field is `null` or missing. -/
structure Post where
  categories : Option (List String)
  deriving DecidableEq, Repr

/-- Errors the call can raise. -/
inductive JSError where
  /-- Raised by `categories.forEach` on `null` or `undefined`. -/
  | typeError
  deriving DecidableEq, Repr

/-- Body of the inner `forEach`:
`cntPerCategory[category] = cntPerCategory[category] ? cntPerCategory[category] + 1 : 1`. -/
def countCategory (cntPerCategory : JSObject) (category : String) : JSObject :=
  setProp cntPerCategory category
    (if toBoolean (getProp cntPerCategory category)
      then plusOne (getProp cntPerCategory category)
      else .number 1)

/-- The outer `posts.forEach`, threading `cntPerCategory`. -/
def forEachPost : List Post → JSObject → Except JSError JSObject
  | [], cntPerCategory => .ok cntPerCategory
  | post :: rest, cntPerCategory =>
    match post.categories with
    | none => .error .typeError
    | some categories => forEachPost rest (categories.foldl countCategory cntPerCategory)

/-- The function `getSortedCategoriesByCount`. -/
def getSortedCategoriesByCount (posts : List Post) : Except JSError (List String) :=
  match forEachPost posts [] with
  | .error e => .error e
  | .ok cntPerCategory => .ok ((sortObjectByValue cntPerCategory).map Prod.fst)

/-- Posts whose `categories` fields are the given lists of strings. -/
def postsOf (categories : List (List String)) : List Post :=
  categories.map (fun c => { categories := some c })

/-- The counting object after all the labels have been traversed. -/
def tally (labels : List String) : JSObject := labels.foldl countCategory []

/-- Every name `Object.prototype` defines. -/
def objectPrototypeNames : List String :=
  "__proto__" :: objectPrototypeMethods.map Prod.fst

/-! ## The counting object: keys -/

open List

theorem forEachPost_postsOf (categories : List (List String)) (obj : JSObject) :
    forEachPost (postsOf categories) obj = .ok (categories.flatten.foldl countCategory obj) := by
  induction categories generalizing obj with
  | nil => rfl
  | cons c rest ih =>
    simp only [postsOf, List.map_cons, forEachPost, List.flatten_cons, List.foldl_append]
    exact ih _

theorem getSorted_postsOf (categories : List (List String)) :
    getSortedCategoriesByCount (postsOf categories)
      = .ok ((sortObjectByValue (tally categories.flatten)).map Prod.fst) := by
  simp only [getSortedCategoriesByCount, forEachPost_postsOf, tally]

theorem tally_snoc (labels : List String) (c : String) :
    tally (labels ++ [c]) = countCategory (tally labels) c := by
  simp [tally, List.foldl_append]

theorem updateOwn_keys (key : String) (v : JSPrim) (obj : JSObject) :
    (updateOwn key v obj).map Prod.fst = obj.map Prod.fst := by
  induction obj with
  | nil => rfl
  | cons e rest ih =>
    obtain ⟨k, w⟩ := e
    simp only [updateOwn]
    split_ifs <;> simp [ih]

theorem lookup_isSome_iff_mem_keys (obj : JSObject) (key : String) :
    (obj.lookup key).isSome ↔ key ∈ obj.map Prod.fst := by
  simp [List.lookup_isSome_iff]

theorem setProp_keys (obj : JSObject) (key : String) (v : JSPrim) :
    (setProp obj key v).map Prod.fst =
      if key ∈ obj.map Prod.fst ∨ key = "__proto__" then obj.map Prod.fst
      else obj.map Prod.fst ++ [key] := by
  unfold setProp
  by_cases h : key ∈ obj.map Prod.fst
  · rw [if_pos ((lookup_isSome_iff_mem_keys obj key).2 h), if_pos (Or.inl h), updateOwn_keys]
  · have h' : ¬ (obj.lookup key).isSome = true := fun hs =>
      h ((lookup_isSome_iff_mem_keys obj key).1 hs)
    rw [if_neg h']
    by_cases hp : key = "__proto__"
    · rw [if_pos hp, if_pos (Or.inr hp)]
    · rw [if_neg hp, if_neg (by tauto)]
      simp

theorem countCategory_keys (obj : JSObject) (c : String) :
    (countCategory obj c).map Prod.fst =
      if c ∈ obj.map Prod.fst ∨ c = "__proto__" then obj.map Prod.fst
      else obj.map Prod.fst ++ [c] :=
  setProp_keys obj c _

theorem mem_keys_tally (labels : List String) (k : String) :
    k ∈ (tally labels).map Prod.fst ↔ k ∈ labels ∧ k ≠ "__proto__" := by
  induction labels using List.reverseRecOn with
  | nil => simp [tally]
  | append_singleton labels c ih =>
    rw [tally_snoc, countCategory_keys]
    split_ifs with h
    · rw [ih, List.mem_append, List.mem_singleton]
      constructor
      · rintro ⟨h1, h2⟩
        exact ⟨Or.inl h1, h2⟩
      · rintro ⟨h1 | h1, h2⟩
        · exact ⟨h1, h2⟩
        · subst h1
          rcases h with h | h
          · exact (ih.1 h)
          · exact absurd h h2
    · rw [List.mem_append, ih, List.mem_append, List.mem_singleton]
      push_neg at h
      constructor
      · rintro (⟨h1, h2⟩ | h1)
        · exact ⟨Or.inl h1, h2⟩
        · subst h1
          exact ⟨Or.inr rfl, h.2⟩
      · rintro ⟨h1 | h1, h2⟩
        · exact Or.inl ⟨h1, h2⟩
        · exact Or.inr h1

theorem nodup_keys_tally (labels : List String) : ((tally labels).map Prod.fst).Nodup := by
  induction labels using List.reverseRecOn with
  | nil => simp [tally]
  | append_singleton labels c ih =>
    rw [tally_snoc, countCategory_keys]
    split_ifs with h
    · exact ih
    · push_neg at h
      exact List.Nodup.append ih (List.nodup_singleton c) (by simpa using h.1)

theorem keys_tally_sublist_snoc (labels : List String) (c : String) :
    (tally labels).map Prod.fst <+ (tally (labels ++ [c])).map Prod.fst := by
  rw [tally_snoc, countCategory_keys]
  split_ifs
  · exact List.Sublist.refl _
  · exact List.sublist_append_left _ _

/-- Keys are created in the order in which the labels are first met. -/
theorem pair_sublist_keys_tally (labels : List String) (a b : String)
    (ha : a ≠ "__proto__") (hb : b ≠ "__proto__") (hmem : b ∈ labels)
    (hlt : labels.indexOf a < labels.indexOf b) :
    [a, b] <+ (tally labels).map Prod.fst := by
  induction labels using List.reverseRecOn with
  | nil => simp at hmem
  | append_singleton labels c ih =>
    by_cases hbl : b ∈ labels
    · have hal : a ∈ labels := by
        by_contra hal
        rw [List.indexOf_append_of_mem hbl, List.indexOf_append_of_not_mem hal] at hlt
        have := (List.indexOf_lt_length (a := b)).2 hbl
        omega
      rw [List.indexOf_append_of_mem hbl, List.indexOf_append_of_mem hal] at hlt
      exact (ih hbl hlt).trans (keys_tally_sublist_snoc labels c)
    · have hbc : b = c := by
        rcases List.mem_append.1 hmem with h | h
        · exact absurd h hbl
        · simpa using h
      subst hbc
      have hal : a ∈ labels := by
        by_contra hal
        rw [List.indexOf_append_of_not_mem hal, List.indexOf_append_of_not_mem hbl] at hlt
        by_cases hab : a = b
        · subst hab; omega
        · rw [List.indexOf_cons_ne _ (Ne.symm hab)] at hlt
          simp at hlt
      rw [tally_snoc, countCategory_keys]
      have hnk : ¬ (b ∈ (tally labels).map Prod.fst ∨ b = "__proto__") := by
        rintro (h | h)
        · exact hbl ((mem_keys_tally labels b).1 h).1
        · exact hb h
      rw [if_neg hnk]
      have h1 : [a] <+ (tally labels).map Prod.fst :=
        List.singleton_sublist.2 ((mem_keys_tally labels a).2 ⟨hal, ha⟩)
      exact h1.append (List.Sublist.refl [b])

/-! ## The counting object: values -/

theorem lookup_updateOwn_ne (key k : String) (v : JSPrim) (obj : JSObject) (h : k ≠ key) :
    (updateOwn key v obj).lookup k = obj.lookup k := by
  induction obj with
  | nil => rfl
  | cons e rest ih =>
    obtain ⟨k', w⟩ := e
    simp only [updateOwn]
    split_ifs with hk
    · subst hk
      have hne : (k == k') = false := by simpa using h
      simp only [List.lookup_cons, hne]
    · simp only [List.lookup_cons, ih]

theorem lookup_updateOwn_self (key : String) (v : JSPrim) (obj : JSObject)
    (h : (obj.lookup key).isSome) : (updateOwn key v obj).lookup key = some v := by
  induction obj with
  | nil => simp at h
  | cons e rest ih =>
    obtain ⟨k', w⟩ := e
    simp only [updateOwn]
    split_ifs with hk
    · subst hk
      simp
    · have hne : (key == k') = false := by simpa using Ne.symm hk
      simp only [List.lookup_cons, hne] at h ⊢
      exact ih h

theorem lookup_setProp_ne (obj : JSObject) (key k : String) (v : JSPrim) (h : k ≠ key) :
    (setProp obj key v).lookup k = obj.lookup k := by
  unfold setProp
  split_ifs
  · exact lookup_updateOwn_ne key k v obj h
  · rfl
  · rw [List.lookup_append]
    have hne : (k == key) = false := by simpa using h
    simp [List.lookup_cons, hne]

theorem lookup_setProp_self (obj : JSObject) (key : String) (v : JSPrim)
    (h : key ≠ "__proto__") : (setProp obj key v).lookup key = some v := by
  unfold setProp
  split_ifs with hs
  · exact lookup_updateOwn_self key v obj hs
  · have hnone : obj.lookup key = none := by
      cases hl : obj.lookup key with
      | none => rfl
      | some p => simp [hl] at hs
    rw [List.lookup_append, hnone]
    simp

theorem prototypeGet_of_not_mem (k : String) (h : k ∉ objectPrototypeNames) :
    prototypeGet k = .undefined := by
  have h1 : k ≠ "__proto__" := fun e => h (by rw [e]; exact List.mem_cons_self _ _)
  have h2 : objectPrototypeMethods.lookup k = none := by
    rw [List.lookup_eq_none_iff]
    intro p hp
    simp only [bne_iff_ne, ne_eq]
    intro hk
    apply h
    exact List.mem_cons_of_mem _ (List.mem_map.2 ⟨p, hp, hk.symm⟩)
  simp [prototypeGet, h1, h2]

theorem ne_proto_of_not_mem (k : String) (h : k ∉ objectPrototypeNames) : k ≠ "__proto__" :=
  fun e => h (by rw [e]; exact List.mem_cons_self _ _)

/-- For a label that names no member of `Object.prototype`, the stored value is the
number of its occurrences so far. -/
theorem lookup_tally (labels : List String) (k : String) (hk : k ∉ objectPrototypeNames) :
    (tally labels).lookup k =
      if labels.count k = 0 then none else some (.number (labels.count k)) := by
  induction labels using List.reverseRecOn with
  | nil => simp [tally]
  | append_singleton labels c ih =>
    rw [tally_snoc, List.count_append]
    by_cases hkc : k = c
    · subst hkc
      have hset := lookup_setProp_self (tally labels) k
        (if toBoolean (getProp (tally labels) k) then plusOne (getProp (tally labels) k)
          else .number 1) (ne_proto_of_not_mem k hk)
      unfold countCategory
      rw [hset]
      by_cases h0 : labels.count k = 0
      · rw [if_pos h0] at ih
        simp [getProp, ih, prototypeGet_of_not_mem k hk, toBoolean, h0]
      · rw [if_neg h0] at ih
        simp [getProp, ih, toBoolean, plusOne, h0]
    · unfold countCategory
      rw [lookup_setProp_ne _ _ _ _ hkc, ih]
      have : [c].count k = 0 := by
        simp [List.count_cons, Ne.symm hkc]
      rw [this, Nat.add_zero]

theorem getProp_tally (labels : List String) (k : String) (hk : k ∉ objectPrototypeNames)
    (hmem : k ∈ labels) : getProp (tally labels) k = .prim (.number (labels.count k)) := by
  have h0 : labels.count k ≠ 0 := by
    have := List.count_pos_iff.2 hmem
    omega
  simp [getProp, lookup_tally labels k hk, h0]

/-! ## Enumeration and sorting -/

theorem forInKeys_perm (obj : JSObject) : forInKeys obj ~ obj.map Prod.fst := by
  unfold forInKeys
  dsimp only
  have h1 := List.perm_insertionSort (fun a b => indexOfKey a ≤ indexOfKey b)
    ((obj.map Prod.fst).filter (fun k => (arrayIndex? k).isSome))
  have h2 : (obj.map Prod.fst).filter (fun k => (arrayIndex? k).isNone)
      = (obj.map Prod.fst).filter (fun k => !(arrayIndex? k).isSome) := by
    congr 1
    funext k
    cases arrayIndex? k <;> rfl
  rw [h2]
  exact (h1.append_right _).trans (List.filter_append_perm _ _)

theorem map_fst_sortable (obj : JSObject) (keys : List String) :
    (keys.map (fun item => (item, getProp obj item))).map Prod.fst = keys := by
  simp [List.map_map, Function.comp_def]

theorem map_fst_sortObjectByValue_perm (obj : JSObject) :
    (sortObjectByValue obj).map Prod.fst ~ obj.map Prod.fst := by
  unfold sortObjectByValue arraySort
  dsimp only
  have h := (List.perm_insertionSort (fun a b : String × JSValue => sortCompare a b ≤ 0)
    ((forInKeys obj).map (fun item => (item, getProp obj item)))).map Prod.fst
  rw [map_fst_sortable] at h
  exact h.trans (forInKeys_perm obj)

theorem mem_sortObjectByValue (obj : JSObject) (e : String × JSValue) :
    e ∈ sortObjectByValue obj ↔ e.1 ∈ obj.map Prod.fst ∧ e.2 = getProp obj e.1 := by
  unfold sortObjectByValue arraySort
  dsimp only
  rw [List.mem_insertionSort, List.mem_map]
  constructor
  · rintro ⟨k, hk, rfl⟩
    exact ⟨(forInKeys_perm obj).mem_iff.1 hk, rfl⟩
  · rintro ⟨h1, h2⟩
    exact ⟨e.1, (forInKeys_perm obj).mem_iff.2 h1, by rw [← h2]⟩

/-- Stability of the sort: two keys enumerated in the order `a`, `b` keep that
order unless the comparator asks for the swap. -/
theorem pair_sublist_sortObjectByValue (obj : JSObject) (a b : String)
    (h : [a, b] <+ forInKeys obj)
    (hc : sortCompare (a, getProp obj a) (b, getProp obj b) ≤ 0) :
    [a, b] <+ (sortObjectByValue obj).map Prod.fst := by
  unfold sortObjectByValue arraySort
  dsimp only
  have h1 : [(a, getProp obj a), (b, getProp obj b)]
      <+ (forInKeys obj).map (fun item => (item, getProp obj item)) :=
    h.map (fun item => (item, getProp obj item))
  have h2 := List.pair_sublist_insertionSort
    (r := fun a b : String × JSValue => sortCompare a b ≤ 0) hc h1
  exact h2.map Prod.fst

theorem pair_sublist_forInKeys_of_not_index (obj : JSObject) (a b : String)
    (ha : arrayIndex? a = none) (hb : arrayIndex? b = none)
    (h : [a, b] <+ obj.map Prod.fst) : [a, b] <+ forInKeys obj := by
  unfold forInKeys
  dsimp only
  have h1 := h.filter (fun k => (arrayIndex? k).isNone)
  have h2 : [a, b].filter (fun k => (arrayIndex? k).isNone) = [a, b] := by
    simp [List.filter_cons, ha, hb]
  rw [h2] at h1
  exact h1.trans (List.sublist_append_right _ _)

theorem pair_sublist_of_pairwise_le (f : String → Nat) (l : List String) (a b : String)
    (hl : l.Pairwise (fun x y => f x ≤ f y)) (ha : a ∈ l) (hb : b ∈ l) (hab : f a < f b) :
    [a, b] <+ l := by
  induction l with
  | nil => simp at ha
  | cons x xs ih =>
    obtain ⟨hx, hxs⟩ := List.pairwise_cons.1 hl
    rcases List.mem_cons.1 ha with rfl | ha'
    · rcases List.mem_cons.1 hb with rfl | hb'
      · omega
      · exact (List.singleton_sublist.2 hb').cons₂ a
    · rcases List.mem_cons.1 hb with rfl | hb'
      · have := hx a ha'
        omega
      · exact (ih hxs ha' hb').cons x

theorem pair_sublist_forInKeys_of_index (obj : JSObject) (a b : String) (i : Nat)
    (ha : arrayIndex? a = some i) (hamem : a ∈ obj.map Prod.fst)
    (hbmem : b ∈ obj.map Prod.fst)
    (hb : arrayIndex? b = none ∨ ∃ j, arrayIndex? b = some j ∧ i < j) :
    [a, b] <+ forInKeys obj := by
  unfold forInKeys
  dsimp only
  have hain : a ∈ ((obj.map Prod.fst).filter (fun k => (arrayIndex? k).isSome)).insertionSort
      (fun a b => indexOfKey a ≤ indexOfKey b) := by
    rw [List.mem_insertionSort, List.mem_filter]
    exact ⟨hamem, by simp [ha]⟩
  rcases hb with hb | ⟨j, hb, hij⟩
  · have hbin : b ∈ (obj.map Prod.fst).filter (fun k => (arrayIndex? k).isNone) := by
      rw [List.mem_filter]
      exact ⟨hbmem, by simp [hb]⟩
    exact (List.singleton_sublist.2 hain).append (List.singleton_sublist.2 hbin)
  · have hbin : b ∈ ((obj.map Prod.fst).filter (fun k => (arrayIndex? k).isSome)).insertionSort
        (fun a b => indexOfKey a ≤ indexOfKey b) := by
      rw [List.mem_insertionSort, List.mem_filter]
      exact ⟨hbmem, by simp [hb]⟩
    haveI : IsTotal String (fun a b => indexOfKey a ≤ indexOfKey b) :=
      ⟨fun a b => Nat.le_total _ _⟩
    haveI : IsTrans String (fun a b => indexOfKey a ≤ indexOfKey b) :=
      ⟨fun a b c h1 h2 => Nat.le_trans h1 h2⟩
    have hs := List.sorted_insertionSort (fun a b => indexOfKey a ≤ indexOfKey b)
      ((obj.map Prod.fst).filter (fun k => (arrayIndex? k).isSome))
    have hlt : indexOfKey a < indexOfKey b := by
      simp [indexOfKey, ha, hb, hij]
    exact (pair_sublist_of_pairwise_le indexOfKey _ a b hs hain hbin hlt).trans
      (List.sublist_append_left _ _)

/-! ## Results on well-formed posts -/

theorem postsOf_getD (posts : List Post) (h : ∀ p ∈ posts, p.categories ≠ none) :
    postsOf (posts.map (fun p => p.categories.getD [])) = posts := by
  induction posts with
  | nil => rfl
  | cons p rest ih =>
    have hp := h p (List.mem_cons_self _ _)
    have hrest := ih (fun q hq => h q (List.mem_cons_of_mem _ hq))
    obtain ⟨c⟩ := p
    cases c with
    | none => exact absurd rfl hp
    | some c =>
      simp only [postsOf, List.map_cons, Option.getD_some] at hrest ⊢
      rw [hrest]

theorem forEachPost_null (pre post : List Post) (obj : JSObject) :
    forEachPost (pre ++ { categories := none } :: post) obj = .error .typeError := by
  induction pre generalizing obj with
  | nil => rfl
  | cons p rest ih =>
    obtain ⟨c⟩ := p
    cases c with
    | none => rfl
    | some c => exact ih _

theorem forEachPost_empty (pre post : List Post) (obj : JSObject) :
    forEachPost (pre ++ { categories := some [] } :: post) obj = forEachPost (pre ++ post) obj := by
  induction pre generalizing obj with
  | nil => rfl
  | cons p rest ih =>
    obtain ⟨c⟩ := p
    cases c with
    | none => rfl
    | some c => exact ih _

/-- Off the inherited names the comparator sees the occurrence counts, so the result
is the enumeration order sorted stably by descending count. -/
theorem map_fst_sortObjectByValue_of_plain (labels : List String)
    (hplain : ∀ l ∈ labels, l ∉ objectPrototypeNames) :
    (sortObjectByValue (tally labels)).map Prod.fst =
      (forInKeys (tally labels)).insertionSort (fun a b => labels.count b ≤ labels.count a) := by
  unfold sortObjectByValue arraySort
  dsimp only
  rw [List.map_insertionSort (fun a b : String × JSValue => sortCompare a b ≤ 0)
    (fun a b => labels.count b ≤ labels.count a) Prod.fst, map_fst_sortable]
  intro x hx y hy
  obtain ⟨k, hk, rfl⟩ := List.mem_map.1 hx
  obtain ⟨k', hk', rfl⟩ := List.mem_map.1 hy
  have hkm := ((mem_keys_tally labels k).1 ((forInKeys_perm _).mem_iff.1 hk)).1
  have hkm' := ((mem_keys_tally labels k').1 ((forInKeys_perm _).mem_iff.1 hk')).1
  simp only [sortCompare, compareFn, getProp_tally labels k (hplain k hkm) hkm,
    getProp_tally labels k' (hplain k' hkm') hkm', toNumber, Option.getD_some]
  omega

/-! ## The claims -/

/-- C1: the label `__proto__` is lost.  On `[{categories: ["__proto__"]}]` the read
`cntPerCategory["__proto__"]` yields `Object.prototype`, the write reaches the
inherited setter with a string and is ignored, so the result is empty although the
label occurs in the input. -/
theorem getSorted_loses_proto :
    getSortedCategoriesByCount (postsOf [["__proto__"]]) = .ok []
      ∧ "__proto__" ∈ [["__proto__"]].flatten := by
  refine ⟨rfl, ?_⟩
  decide

/-- Every label other than `__proto__` is in the result exactly when it occurs in
some post, and `__proto__` never is. -/
theorem mem_getSorted_iff (categories : List (List String)) (l : String) :
    ∃ out, getSortedCategoriesByCount (postsOf categories) = .ok out
      ∧ (l ∈ out ↔ l ∈ categories.flatten ∧ l ≠ "__proto__") := by
  refine ⟨_, getSorted_postsOf categories, ?_⟩
  rw [(map_fst_sortObjectByValue_perm _).mem_iff, mem_keys_tally]

/-- C2, as stated, fails: in `[{categories: ["b", "2", "1"]}]` the labels `b` and `1`
both occur once and `b` is met first, yet `1` comes first in the result. -/
theorem tie_order_counterexample :
    ¬ (∀ a b : String,
        [["b", "2", "1"]].flatten.count a = [["b", "2", "1"]].flatten.count b →
        [["b", "2", "1"]].flatten.indexOf a < [["b", "2", "1"]].flatten.indexOf b →
        ∃ out, getSortedCategoriesByCount (postsOf [["b", "2", "1"]]) = .ok out
          ∧ [a, b] <+ out) := by
  intro h
  obtain ⟨out, hout, hsub⟩ := h "b" "1" (by decide) (by decide)
  have hval : getSortedCategoriesByCount (postsOf [["b", "2", "1"]]) = .ok ["1", "2", "b"] := rfl
  rw [hval] at hout
  injection hout with hout
  subst hout
  revert hsub
  decide

/-- C2, amended: in posts none of whose labels names a member of `Object.prototype`,
two labels that are not array indices, occur equally often, and are first met in the
order `a`, `b` appear in the result in that order. -/
theorem getSorted_tie_order (categories : List (List String)) (a b : String)
    (hplain : ∀ l ∈ categories.flatten, l ∉ objectPrototypeNames)
    (ha : arrayIndex? a = none) (hb : arrayIndex? b = none)
    (hcount : categories.flatten.count a = categories.flatten.count b)
    (hlt : categories.flatten.indexOf a < categories.flatten.indexOf b) :
    ∃ out, getSortedCategoriesByCount (postsOf categories) = .ok out ∧ [a, b] <+ out := by
  refine ⟨_, getSorted_postsOf categories, ?_⟩
  have hamem : a ∈ categories.flatten := by
    rw [← List.indexOf_lt_length]
    exact lt_of_lt_of_le hlt List.indexOf_le_length
  have hbmem : b ∈ categories.flatten := by
    rw [← List.count_pos_iff, ← hcount]
    exact List.count_pos_iff.2 hamem
  have hap := hplain a hamem
  have hbp := hplain b hbmem
  apply pair_sublist_sortObjectByValue
  · exact pair_sublist_forInKeys_of_not_index _ a b ha hb
      (pair_sublist_keys_tally _ a b (ne_proto_of_not_mem a hap) (ne_proto_of_not_mem b hbp)
        hbmem hlt)
  · simp only [sortCompare, compareFn, getProp_tally _ a hap hamem, getProp_tally _ b hbp hbmem,
      toNumber, Option.getD_some, hcount]
    omega

/-- Instance of `getSorted_tie_order` on the posts `x`, `y`, `x`, `y`, `z`, whose result
is `["x", "y", "z"]`. -/
theorem getSorted_tie_order_witness :
    (∀ l ∈ [["x"], ["y"], ["x"], ["y"], ["z"]].flatten, l ∉ objectPrototypeNames)
      ∧ arrayIndex? "x" = none ∧ arrayIndex? "y" = none
      ∧ [["x"], ["y"], ["x"], ["y"], ["z"]].flatten.count "x"
          = [["x"], ["y"], ["x"], ["y"], ["z"]].flatten.count "y"
      ∧ [["x"], ["y"], ["x"], ["y"], ["z"]].flatten.indexOf "x"
          < [["x"], ["y"], ["x"], ["y"], ["z"]].flatten.indexOf "y"
      ∧ (∃ out, getSortedCategoriesByCount (postsOf [["x"], ["y"], ["x"], ["y"], ["z"]]) = .ok out
          ∧ ["x", "y"] <+ out)
      ∧ getSortedCategoriesByCount (postsOf [["x"], ["y"], ["x"], ["y"], ["z"]])
          = .ok ["x", "y", "z"] :=
  ⟨by decide, by decide, by decide, by decide, by decide,
    getSorted_tie_order [["x"], ["y"], ["x"], ["y"], ["z"]] "x" "y"
      (by decide) (by decide) (by decide) (by decide) (by decide),
    rfl⟩

/-- C3: the result is not always in descending order of occurrences.  On
`[{categories: ["constructor", "b", "b"]}]` the value stored for `constructor` is the
string `String(Object) + "1"`, the comparator yields `NaN` against it, and `constructor`
(one occurrence) stays ahead of `b` (two occurrences). -/
theorem getSorted_not_descending :
    getSortedCategoriesByCount (postsOf [["constructor", "b", "b"]]) = .ok ["constructor", "b"]
      ∧ sortObjectByValue (tally [["constructor", "b", "b"]].flatten)
          = [("constructor", .prim (.string (.nativeFunction "Object") 1)),
             ("b", .prim (.number 2))]
      ∧ [["constructor", "b", "b"]].flatten.count "constructor"
          < [["constructor", "b", "b"]].flatten.count "b" := by
  refine ⟨rfl, rfl, ?_⟩
  decide

/-- In posts none of whose labels names a member of `Object.prototype`, every adjacent
pair of the result is in descending order of occurrences; the posts `go rust`, `go`,
`ts` give `["go", "rust", "ts"]`. -/
theorem getSorted_descending_of_plain (categories : List (List String))
    (hplain : ∀ l ∈ categories.flatten, l ∉ objectPrototypeNames) :
    (∃ out, getSortedCategoriesByCount (postsOf categories) = .ok out
      ∧ out.Chain' (fun a b => categories.flatten.count b ≤ categories.flatten.count a))
    ∧ getSortedCategoriesByCount (postsOf [["go", "rust"], ["go"], ["ts"]])
        = .ok ["go", "rust", "ts"] := by
  refine ⟨⟨_, getSorted_postsOf categories, ?_⟩, rfl⟩
  rw [map_fst_sortObjectByValue_of_plain _ hplain]
  haveI : IsTotal String (fun a b => categories.flatten.count b ≤ categories.flatten.count a) :=
    ⟨fun a b => Nat.le_total _ _⟩
  haveI : IsTrans String (fun a b => categories.flatten.count b ≤ categories.flatten.count a) :=
    ⟨fun a b c h1 h2 => Nat.le_trans h2 h1⟩
  exact (List.sorted_insertionSort
    (fun a b => categories.flatten.count b ≤ categories.flatten.count a) _).chain'

/-- C4, as stated, fails: with a post whose `categories` is `null` or missing the call
throws, while with `categories: []` it returns the empty list. -/
theorem null_categories_counterexample :
    getSortedCategoriesByCount [{ categories := none }] = .error .typeError
      ∧ getSortedCategoriesByCount [{ categories := some [] }] = .ok []
      ∧ getSortedCategoriesByCount [{ categories := none }]
          ≠ getSortedCategoriesByCount [{ categories := some [] }] := by
  refine ⟨rfl, rfl, ?_⟩
  intro h
  cases h

/-- C4, amended: a post whose `categories` is `null` or missing makes the call throw a
TypeError, whatever the other posts are; a post with `categories: []` contributes
nothing, the result being that of the posts without it. -/
theorem getSorted_null_or_empty (pre post : List Post) :
    getSortedCategoriesByCount (pre ++ { categories := none } :: post) = .error .typeError
      ∧ getSortedCategoriesByCount (pre ++ { categories := some [] } :: post)
          = getSortedCategoriesByCount (pre ++ post) := by
  constructor
  · simp only [getSortedCategoriesByCount, forEachPost_null]
  · simp only [getSortedCategoriesByCount, forEachPost_empty]

/-- C5: the value paired with a label is not always a number.  On
`[{categories: ["constructor"]}]` the read `cntPerCategory["constructor"]` yields the
inherited function `Object`, which is truthy, so the value stored and returned by
`sortObjectByValue` is the string `String(Object) + "1"`, whose ToNumber is `NaN`. -/
theorem sortObjectByValue_string_count :
    sortObjectByValue (tally [["constructor"]].flatten)
        = [("constructor", .prim (.string (.nativeFunction "Object") 1))]
      ∧ (JSPrim.string (.nativeFunction "Object") 1).text?
          = some "function Object() \x7b [native code] \x7d1"
      ∧ toNumber (.prim (.string (.nativeFunction "Object") 1)) = none
      ∧ [["constructor"]].flatten.count "constructor" = 1 := by
  refine ⟨rfl, rfl, rfl, ?_⟩
  decide

/-- In posts none of whose labels names a member of `Object.prototype`, the value
`sortObjectByValue` pairs with a label is the number of its occurrences, repeats within
a post included; the posts `[]`, `a a` give `a` with count 2. -/
theorem sortObjectByValue_counts_of_plain (categories : List (List String))
    (hplain : ∀ l ∈ categories.flatten, l ∉ objectPrototypeNames) :
    (∀ l ∈ categories.flatten,
        (l, JSValue.prim (.number (categories.flatten.count l)))
          ∈ sortObjectByValue (tally categories.flatten))
    ∧ (∀ e ∈ sortObjectByValue (tally categories.flatten),
        e.2 = .prim (.number (categories.flatten.count e.1)))
    ∧ sortObjectByValue (tally [[], ["a", "a"]].flatten) = [("a", .prim (.number 2))] := by
  refine ⟨?_, ?_, rfl⟩
  · intro l hl
    rw [mem_sortObjectByValue]
    exact ⟨(mem_keys_tally _ l).2 ⟨hl, ne_proto_of_not_mem l (hplain l hl)⟩,
      (getProp_tally _ l (hplain l hl) hl).symm⟩
  · intro e he
    obtain ⟨h1, h2⟩ := (mem_sortObjectByValue _ e).1 he
    have hmem := ((mem_keys_tally _ e.1).1 h1).1
    rw [h2, getProp_tally _ e.1 (hplain e.1 hmem) hmem]

/-- C6: whatever the labels are and however often they occur, every label appears at
most once in the result. -/
theorem getSorted_nodup (categories : List (List String)) :
    ∃ out, getSortedCategoriesByCount (postsOf categories) = .ok out
      ∧ out.Nodup ∧ ∀ l, out.count l ≤ 1 := by
  have h : ((sortObjectByValue (tally categories.flatten)).map Prod.fst).Nodup :=
    (map_fst_sortObjectByValue_perm _).nodup_iff.2 (nodup_keys_tally _)
  exact ⟨_, getSorted_postsOf categories, h, fun l => List.nodup_iff_count_le_one.1 h l⟩

/-- C7: on posts each of which has a list of strings as `categories`, the call returns a
list of strings and raises no error. -/
theorem getSorted_total (posts : List Post) (h : ∀ p ∈ posts, p.categories ≠ none) :
    ∃ out : List String, getSortedCategoriesByCount posts = .ok out := by
  rw [← postsOf_getD posts h]
  exact ⟨_, getSorted_postsOf _⟩

/-- Instance of `getSorted_total` on the posts `go rust`, `go`, `ts`. -/
theorem getSorted_total_witness :
    (∀ p ∈ postsOf [["go", "rust"], ["go"], ["ts"]], p.categories ≠ none)
      ∧ ∃ out : List String,
          getSortedCategoriesByCount (postsOf [["go", "rust"], ["go"], ["ts"]]) = .ok out :=
  ⟨by decide, getSorted_total (postsOf [["go", "rust"], ["go"], ["ts"]]) (by decide)⟩

/-- C8: on the empty list of posts the result is the empty list. -/
theorem getSorted_nil : getSortedCategoriesByCount [] = .ok [] := rfl

/-- C9, as stated, fails: `4294967295` is a canonical non-negative integer string but
no array index, so `for ... in` visits it in creation order; in
`[{categories: ["b", "4294967295"]}]` it occurs as often as `b` and comes after it. -/
theorem integer_order_counterexample :
    ¬ (∀ a b : String, canonicalNat? a ≠ none → canonicalNat? b = none →
        a ∈ [["b", "4294967295"]].flatten → b ∈ [["b", "4294967295"]].flatten →
        [["b", "4294967295"]].flatten.count a = [["b", "4294967295"]].flatten.count b →
        ∃ out, getSortedCategoriesByCount (postsOf [["b", "4294967295"]]) = .ok out
          ∧ [a, b] <+ out) := by
  intro h
  obtain ⟨out, hout, hsub⟩ :=
    h "4294967295" "b" (by decide) (by decide) (by decide) (by decide) (by decide)
  have hval : getSortedCategoriesByCount (postsOf [["b", "4294967295"]])
      = .ok ["b", "4294967295"] := rfl
  rw [hval] at hout
  injection hout with hout
  subst hout
  revert hsub
  decide

/-- C9, amended: in posts none of whose labels names a member of `Object.prototype`, a
label `a` that is an array index (a canonical integer string below `2 ^ 32 - 1`) is
visited by `for ... in` before every label `b` that is no array index and before every
array index greater than it, whatever order they were first seen in; when `a` and `b`
occur equally often they appear in the result in that order. -/
theorem getSorted_index_order (categories : List (List String)) (a b : String) (i : Nat)
    (hplain : ∀ l ∈ categories.flatten, l ∉ objectPrototypeNames)
    (ha : a ∈ categories.flatten) (hb : b ∈ categories.flatten)
    (hai : arrayIndex? a = some i)
    (hbi : arrayIndex? b = none ∨ ∃ j, arrayIndex? b = some j ∧ i < j) :
    [a, b] <+ forInKeys (tally categories.flatten)
      ∧ (categories.flatten.count a = categories.flatten.count b →
          ∃ out, getSortedCategoriesByCount (postsOf categories) = .ok out ∧ [a, b] <+ out) := by
  have hap := hplain a ha
  have hbp := hplain b hb
  have henum : [a, b] <+ forInKeys (tally categories.flatten) :=
    pair_sublist_forInKeys_of_index _ a b i hai
      ((mem_keys_tally _ a).2 ⟨ha, ne_proto_of_not_mem a hap⟩)
      ((mem_keys_tally _ b).2 ⟨hb, ne_proto_of_not_mem b hbp⟩) hbi
  refine ⟨henum, fun hcount => ⟨_, getSorted_postsOf categories, ?_⟩⟩
  apply pair_sublist_sortObjectByValue _ a b henum
  simp only [sortCompare, compareFn, getProp_tally _ a hap ha, getProp_tally _ b hbp hb,
    toNumber, Option.getD_some, hcount]
  omega

/-- Instance of `getSorted_index_order` on `[{categories: ["b", "2", "1"]}]`, whose
result is `["1", "2", "b"]`. -/
theorem getSorted_index_order_witness :
    (∀ l ∈ [["b", "2", "1"]].flatten, l ∉ objectPrototypeNames)
      ∧ "1" ∈ [["b", "2", "1"]].flatten ∧ "2" ∈ [["b", "2", "1"]].flatten
      ∧ arrayIndex? "1" = some 1
      ∧ (arrayIndex? "2" = none ∨ ∃ j, arrayIndex? "2" = some j ∧ 1 < j)
      ∧ (["1", "2"] <+ forInKeys (tally [["b", "2", "1"]].flatten)
          ∧ ([["b", "2", "1"]].flatten.count "1" = [["b", "2", "1"]].flatten.count "2" →
              ∃ out, getSortedCategoriesByCount (postsOf [["b", "2", "1"]]) = .ok out
                ∧ ["1", "2"] <+ out))
      ∧ getSortedCategoriesByCount (postsOf [["b", "2", "1"]]) = .ok ["1", "2", "b"] :=
  ⟨by decide, by decide, by decide, by decide, Or.inr ⟨2, by decide, by decide⟩,
    getSorted_index_order [["b", "2", "1"]] "1" "2" 1 (by decide) (by decide) (by decide)
      (by decide) (Or.inr ⟨2, by decide, by decide⟩),
    rfl⟩

/-- C10: the result depends only on the flattened label sequence: it equals the result
on the single post holding the concatenation of all `categories`, and a post with empty
`categories` inserted anywhere does not change it. -/
theorem getSorted_flatten (categories pre post : List (List String)) :
    getSortedCategoriesByCount (postsOf categories)
        = getSortedCategoriesByCount (postsOf [categories.flatten])
      ∧ getSortedCategoriesByCount (postsOf (pre ++ [] :: post))
          = getSortedCategoriesByCount (postsOf (pre ++ post)) := by
  constructor
  · rw [getSorted_postsOf, getSorted_postsOf]
    simp
  · rw [getSorted_postsOf, getSorted_postsOf]
    simp

end Helpers
